import Mathlib

/-!
# gkit: the `tag` and `get` commands

A shallow embedding of `cmd/tag.go` (version arithmetic and the choice of the
latest remote tag) and of `cmd/get.go` (the search-result builder and the
bubbletea model), followed by the properties established about them.

Conventions of the embedding
* A Go `string` is a `List Char`; literals are written `"v0.0.1".data`. Every
  separator, cutset and pattern the code uses is ASCII, so the byte-wise Go
  operations and the character-wise ones below agree on UTF-8 text.
* A Go `error` is an `Option` of its message, `none` being `nil`.
* A Go `int` is a 64-bit two's-complement integer, kept as an `Int` and
  wrapped explicitly where the code does arithmetic on it.
* Functions of the Go standard library and of third-party packages are
  modelled by the small definitions in the first sections, each named after
  the function it stands for.
-/

namespace Gkit

/-- The Go `error` value: `none` is `nil`, `some msg` carries `Error()`. -/
abbrev GoError := Option (List Char)

/-! ## Go `int` -/

/-- Largest value of a 64-bit Go `int`. -/
def maxInt : Int := 2 ^ 63 - 1

/-- Two's-complement wrap-around of a 64-bit `int` result. -/
def wrapInt (x : Int) : Int := (x + 2 ^ 63) % 2 ^ 64 - 2 ^ 63

/-! ## Packages `strings`, `strconv`, `fmt`, `unicode`, `regexp` -/

/-- The function `strings.TrimPrefix(s, p)`. -/
def strings_TrimPrefix (s p : List Char) : List Char :=
  if p.isPrefixOf s then s.drop p.length else s

/-- Worker of the splitting functions: `cur` is the piece being read,
reversed; a character on which `isSep` holds ends the piece. -/
def splitAux (isSep : Char → Bool) : List Char → List Char → List (List Char)
  | [], cur => [cur.reverse]
  | c :: cs, cur =>
    if isSep c then cur.reverse :: splitAux isSep cs [] else splitAux isSep cs (c :: cur)

/-- The function `strings.Split(s, sep)` for a one-character separator (the
code splits on a newline and on a dot): the pieces between the separators,
one more than there are separators. -/
def strings_Split (s : List Char) (sep : Char) : List (List Char) :=
  splitAux (fun c => c == sep) s []

/-- The function `strings.Trim(s, cutset)`: the leading and the trailing
characters that belong to `cutset` are removed. -/
def strings_Trim (s cutset : List Char) : List Char :=
  ((s.dropWhile (fun c => cutset.contains c)).reverse.dropWhile
    (fun c => cutset.contains c)).reverse

/-- The call `strings.Replace(s, old, new, 1)` for a non-empty `old` (the
code passes a literal): the first occurrence of `old` is replaced. -/
def strings_Replace1 (old new : List Char) : List Char → List Char
  | [] => []
  | c :: cs =>
    if old.isPrefixOf (c :: cs) then new ++ (c :: cs).drop old.length
    else c :: strings_Replace1 old new cs

/-- An ASCII decimal digit, the class `\d` of `regexp` and the digits that
`strconv.Atoi` accepts. -/
def isDigit (c : Char) : Bool := 48 ≤ c.toNat && c.toNat ≤ 57

/-- Value of a string of decimal digits, most significant first. -/
def digitsValue (ds : List Char) : Nat :=
  ds.foldl (fun acc c => acc * 10 + (c.toNat - 48)) 0

/-- Digits part of `strconv.Atoi`, after the optional sign was removed:
a syntax error on an empty or non-digit string, a range error when the value
does not fit a 64-bit `int`; both are `none`. -/
def atoiDigits (neg : Bool) (ds : List Char) : Option Int :=
  if ds = [] ∨ ds.all isDigit = false then none
  else if neg then
    (if (digitsValue ds : Int) ≤ 2 ^ 63 then some (-(digitsValue ds : Int)) else none)
  else
    (if (digitsValue ds : Int) ≤ maxInt then some (digitsValue ds : Int) else none)

/-- The function `strconv.Atoi(s)`: `some v` when `err == nil`. -/
def strconv_Atoi (s : List Char) : Option Int :=
  match s with
  | [] => none
  | c :: cs =>
    if c = '+' then atoiDigits false cs
    else if c = '-' then atoiDigits true cs
    else atoiDigits false (c :: cs)

/-- The verb `%d` of `fmt.Sprintf` on an `int`. -/
def formatInt (i : Int) : List Char :=
  if i < 0 then '-' :: Nat.toDigits 10 i.natAbs else Nat.toDigits 10 i.toNat

/-- The function `unicode.ToLower(r)`. On ASCII it maps `A`..`Z` to `a`..`z`
and nothing else; above ASCII it follows the Unicode case tables, which are
data of the Go distribution and are taken as the parameter `tbl`. -/
def unicode_ToLower (tbl : Char → Char) (c : Char) : Char :=
  if c.toNat < 128 then
    (if 65 ≤ c.toNat ∧ c.toNat ≤ 90 then Char.ofNat (c.toNat + 32) else c)
  else tbl c

/-- The function `strings.ToLower(s)`: every character mapped by
`unicode.ToLower`. -/
def strings_ToLower (tbl : Char → Char) (s : List Char) : List Char :=
  s.map (unicode_ToLower tbl)

/-- Whether `s` matches `\d+\.\d+\.\d+$` from its first character to its
last. A greedy run of digits is the only way to match `\d+` before a dot. -/
def matchVersionToEnd (s : List Char) : Bool :=
  let a := s.takeWhile isDigit
  let r1 := s.dropWhile isDigit
  match r1 with
  | [] => false
  | d1 :: t1 =>
    let b := t1.takeWhile isDigit
    let r2 := t1.dropWhile isDigit
    match r2 with
    | [] => false
    | d2 :: t2 =>
      !a.isEmpty && d1 = '.' && !b.isEmpty && d2 = '.' && !t2.isEmpty && t2.all isDigit

/-- The call `pattern.FindStringSubmatch(line)` for the pattern
`refs/tags/v(\d+\.\d+\.\d+)$`: the text of the capture group of the leftmost
match, `none` when the line has no match (the Go result then has length 0). -/
def FindStringSubmatch : List Char → Option (List Char)
  | [] => none
  | c :: cs =>
    if "refs/tags/v".data.isPrefixOf (c :: cs)
        && matchVersionToEnd ((c :: cs).drop 11) then
      some ((c :: cs).drop 11)
    else FindStringSubmatch cs

/-! ## `cmd/tag.go` -/

/-- One component of `extractVersionParts`: the body of its loop at index
`i`, which leaves the initial `0` when there is no such part or when
`strconv.Atoi` reports an error. -/
def versionPart (parts : List (List Char)) (i : Nat) : Int :=
  match parts.get? i with
  | none => 0
  | some p =>
    match strconv_Atoi p with
    | some val => val
    | none => 0

/-- The function `extractVersionParts`; the `[3]int` is a triple. -/
def extractVersionParts (version : List Char) : Int × Int × Int :=
  let version := strings_TrimPrefix version "v".data
  let parts := strings_Split version '.'
  (versionPart parts 0, versionPart parts 1, versionPart parts 2)

/-- The loop of `compareVersions` over the paired components. -/
def compareLoop : List (Int × Int) → Int
  | [] => 0
  | (a, b) :: rest =>
    if a > b then 1
    else if a < b then -1
    else compareLoop rest

/-- The function `compareVersions`. -/
def compareVersions (v1 v2 : List Char) : Int :=
  let v1Parts := extractVersionParts v1
  let v2Parts := extractVersionParts v2
  compareLoop [(v1Parts.1, v2Parts.1), (v1Parts.2.1, v2Parts.2.1),
    (v1Parts.2.2, v2Parts.2.2)]

/-- The call `fmt.Sprintf("v%d.%d.%d", a, b, c)`. -/
def sprintfVersion (a b c : Int) : List Char :=
  'v' :: (formatInt a ++ '.' :: (formatInt b ++ '.' :: formatInt c))

/-- The function `incrementVersion`. -/
def incrementVersion (tbl : Char → Char) (version versionType : List Char) :
    List Char × GoError :=
  let parts := extractVersionParts version
  let t := strings_ToLower tbl versionType
  if t = "major".data then
    (sprintfVersion (wrapInt (parts.1 + 1)) 0 0, none)
  else if t = "minor".data then
    (sprintfVersion parts.1 (wrapInt (parts.2.1 + 1)) 0, none)
  else if t = "patch".data then
    (sprintfVersion parts.1 parts.2.1 (wrapInt (parts.2.2 + 1)), none)
  else
    ([], some ("invalid version type: ".data ++ versionType
      ++ ", should be major, minor, or patch".data))

/-- The tags that `getLatestTag` collects from the lines of the output. -/
def collectTags (lines : List (List Char)) : List (List Char) :=
  lines.foldl
    (fun tags line =>
      match FindStringSubmatch line with
      | some m => tags ++ ['v' :: m]
      | none => tags)
    []

/-- The function `getLatestTag`, as a function of what
`exec.Command("git", "ls-remote", "--tags", "origin").Output()` returned. -/
def getLatestTag (output : List Char) (err : GoError) : List Char × GoError :=
  match err with
  | some e => ([], some e)
  | none =>
    if output.length = 0 then ([], some "no remote tags found".data)
    else
      match collectTags (strings_Split output '\n') with
      | [] => ([], some "no semantic versioned remote tags found".data)
      | first :: rest =>
        (rest.foldl
          (fun latestTag tag =>
            if compareVersions tag latestTag > 0 then tag else latestTag)
          first, none)

/-- What `createAndPushTag` does to the outside world. -/
inductive Effect where
  | print (text : List Char)
  | gitTag (tag : List Char)
  | gitTagAnnotated (tag message : List Char)
  | gitPush (tag : List Char)
deriving DecidableEq, Repr

/-- The environment of the `tag` command: the result of `git ls-remote` and
the result of `cmd.Run()` for each git command that is started. -/
structure Git where
  lsRemoteOutput : List Char
  lsRemoteErr : GoError
  run : Effect → GoError

/-- The function `createTag`: the command it runs and that command's result. -/
def createTag (g : Git) (tag message : List Char) : Effect × GoError :=
  if message = [] then (Effect.gitTag tag, g.run (Effect.gitTag tag))
  else (Effect.gitTagAnnotated tag message, g.run (Effect.gitTagAnnotated tag message))

/-- The function `pushTag`. -/
def pushTag (g : Git) (tag : List Char) : Effect × GoError :=
  (Effect.gitPush tag, g.run (Effect.gitPush tag))

/-- The function `createAndPushTag`: the effects in the order they happen,
and the returned error. -/
def createAndPushTag (tbl : Char → Char) (g : Git) (message versionType : List Char) :
    List Effect × GoError :=
  let fetched := getLatestTag g.lsRemoteOutput g.lsRemoteErr
  let e1 : List Effect := [Effect.print "Fetching remote tags...".data] ++
    (match fetched.2 with
     | some e => [Effect.print ("Failed to get remote tags: ".data ++ e),
                  Effect.print "Will use default version v0.0.1".data]
     | none => [Effect.print ("Latest tag found: ".data ++ fetched.1)])
  let latestTag := match fetched.2 with
    | some _ => "v0.0.1".data
    | none => fetched.1
  match incrementVersion tbl latestTag versionType with
  | (_, some e) => (e1, some ("failed to increment version: ".data ++ e))
  | (newTag, none) =>
    let e2 := e1 ++ [Effect.print ("New tag version: ".data ++ newTag),
      Effect.print ("Creating tag ".data ++ newTag ++ "...".data)]
    match createTag g newTag message with
    | (c, some e) => (e2 ++ [c], some ("failed to create tag: ".data ++ e))
    | (c, none) =>
      let e3 := e2 ++ [c, Effect.print ("Pushing tag ".data ++ newTag
        ++ " to remote repository...".data)]
      match pushTag g newTag with
      | (p, some e) => (e3 ++ [p], some ("failed to push tag: ".data ++ e))
      | (p, none) =>
        (e3 ++ [p, Effect.print ("Tag ".data ++ newTag
          ++ " has been successfully created and pushed to remote repository".data)], none)

/-! ## Packages `html`, `cascadia`, `goquery` -/

/-- Tag name and attributes of an element node (`html.Node` with
`Type == ElementNode`: `Data` and `Attr`). -/
structure Elem where
  tag : List Char
  attr : List (List Char × List Char)
deriving DecidableEq, Repr

/-- A node of a parsed HTML document. -/
inductive Node where
  | text (data : List Char)
  | comment (data : List Char)
  | element (e : Elem) (children : List Node)

/-- A parsed document: the children of the document node, in order. -/
structure Document where
  roots : List Node

/-- The selectors of cascadia that `get.go` writes: a class `.c`, a tag, an
attribute test `[k='v']`, a compound of two of them on the same element, and
the descendant combinator (white space). -/
inductive Selector where
  | cls (name : List Char)
  | tag (name : List Char)
  | attrEq (key val : List Char)
  | both (a b : Selector)
  | descendant (ancestor target : Selector)

/-- White space that separates the names in a `class` attribute. -/
def isClassSpace (c : Char) : Bool :=
  c == ' ' || c == '\t' || c == '\r' || c == '\n' || c.toNat == 12

/-- Class test of cascadia: some `class` attribute of the element has `name`
among its white-space separated fields. -/
def hasClass (e : Elem) (name : List Char) : Bool :=
  e.attr.any (fun kv => kv.1 == "class".data && (splitAux isClassSpace kv.2 []).contains name)

/-- Whether the selector matches the element `e` whose ancestors, nearest
first, are `anc`. The descendant combinator looks at every ancestor up to the
document node, as cascadia does by following `Parent`. -/
def Selector.matchesAt : Selector → List Elem → Elem → Bool
  | .cls name, _, e => hasClass e name
  | .tag name, _, e => e.tag == name
  | .attrEq key val, _, e => e.attr.any (fun kv => kv.1 == key && kv.2 == val)
  | .both a b, anc, e => a.matchesAt anc e && b.matchesAt anc e
  | .descendant a t, anc, e =>
    t.matchesAt anc e && (anc.zip anc.tails.tail).any (fun p => a.matchesAt p.2 p.1)

/-- An element of a selection: the element, its ancestors (nearest first) and
its children. -/
structure Located where
  ancestors : List Elem
  elem : Elem
  children : List Node

mutual
/-- The function `Matcher.MatchAll(n)`: the elements of the subtree of `n`,
`n` included, that match, in document order. -/
def matchAll (sel : Selector) (anc : List Elem) : Node → List Located
  | .text _ => []
  | .comment _ => []
  | .element e cs =>
    (if sel.matchesAt anc e then [⟨anc, e, cs⟩] else [])
      ++ matchAllList sel (e :: anc) cs
/-- The function `matchAll` over a list of sibling nodes. -/
def matchAllList (sel : Selector) (anc : List Elem) : List Node → List Located
  | [] => []
  | c :: cs => matchAll sel anc c ++ matchAllList sel anc cs
end

mutual
/-- Text of the subtree of a node: its text nodes in order. -/
def nodeText : Node → List Char
  | .text d => d
  | .comment _ => []
  | .element _ cs => nodeTextList cs
/-- Text of a list of sibling nodes. -/
def nodeTextList : List Node → List Char
  | [] => []
  | c :: cs => nodeText c ++ nodeTextList cs
end

/-- The method `doc.Find(sel)` on the document: the matching elements below
the document node, in document order. -/
def Document.Find (doc : Document) (sel : Selector) : List Located :=
  matchAllList sel [] doc.roots

/-- The method `s.Find(sel)` on the one-element selection that `Each` hands
to its callback: the matching descendants of that element. -/
def Located.Find (s : Located) (sel : Selector) : List Located :=
  matchAllList sel (s.elem :: s.ancestors) s.children

/-- The method `Text()` of a selection: the text of every selected element,
concatenated. -/
def selectionText (s : List Located) : List Char :=
  s.flatMap (fun l => nodeTextList l.children)

/-! ## `cmd/get.go`: the search -/

/-- The struct `item`. -/
structure item where
  Package : List Char
  Star : List Char
  From : List Char
deriving DecidableEq, Repr

/-- The selector `.go-Content.SearchResults`. -/
def selResults : Selector :=
  .both (.cls "go-Content".data) (.cls "SearchResults".data)

/-- The selector `.go-Content.SearchResults  .SearchSnippet`. -/
def selSnippet : Selector :=
  .descendant selResults (.cls "SearchSnippet".data)

/-- The selector `.SearchSnippet-header-path`. -/
def selHeaderPath : Selector := .cls "SearchSnippet-header-path".data

/-- The selector `a[aria-label='Go to Imported By']  strong`. -/
def selImportedBy : Selector :=
  .descendant (.both (.tag "a".data) (.attrEq "aria-label".data "Go to Imported By".data))
    (.tag "strong".data)

/-- The selector `.SearchSnippet-sub.go-textSubtle strong`. -/
def selSub : Selector :=
  .descendant (.both (.cls "SearchSnippet-sub".data) (.cls "go-textSubtle".data))
    (.tag "strong".data)

/-- What the callback of `Each` in `searchPkgGo` appends for one snippet. -/
def snippetItems (s : Located) : List item :=
  let path := strings_Trim (selectionText (s.Find selHeaderPath)) "(".data
  let path := strings_Trim path ")".data
  let importCount := selectionText (s.Find selImportedBy)
  let val := selectionText (s.Find selSub)
  if val ≠ [] then
    let subPath := strings_Replace1 "Other packages in module ".data [] val
    let subPath := strings_Trim subPath ":".data
    [⟨path, importCount, []⟩, ⟨subPath, importCount, path⟩]
  else
    [⟨path, importCount, []⟩]

/-- What `http.Get` and `goquery.NewDocumentFromReader` gave: a transport
error, or a response with its status and the result of parsing its body. -/
inductive Fetched where
  | failed (err : List Char)
  | response (statusCode : Int) (status : List Char) (body : Except (List Char) Document)

/-- The function `searchPkgGo`, as a function of the keyword and of what the
request returned. -/
def searchPkgGo (kw : List Char) (r : Fetched) : List item × GoError :=
  match r with
  | .failed err => ([], some err)
  | .response statusCode status body =>
    if statusCode ≠ 200 then
      ([], some ("search for https://pkg.go.dev/search?q=".data ++ kw
        ++ " Package error: ".data ++ formatInt statusCode ++ " ".data ++ status))
    else
      match body with
      | .error err => ([], some err)
      | .ok doc =>
        if (doc.Find selResults).length = 0 then
          ([⟨kw, [], []⟩], none)
        else
          ((doc.Find selSnippet).foldl (fun result s => result ++ snippetItems s) [], none)

/-! ## `cmd/get.go`: the bubbletea model -/

/-- A `tea.Cmd` as far as the model is concerned: `nil`, `tea.Quit`, or a
command made by one of the bubbles components. -/
inductive Cmd where
  | nil
  | Quit
  | component (tag : Nat)
deriving DecidableEq, Repr

/-- The messages that `Update` distinguishes; `other` is any other
`tea.Msg`. -/
inductive Msg where
  | WindowSizeMsg (Width Height : Int)
  | KeyMsg (key : List Char)
  | TickMsg (tag : Nat)
  | searchLoadMsg
  | searchDoneMsg
  | searchResultMsg (items : List item)
  | outputMsg (msg : List Char)
  | outputDoneMsg
  | other (tag : Nat)
deriving DecidableEq, Repr

/-- The parts of the bubbles and lipgloss packages that the model calls, over
a list component `L` and a spinner component `S`. -/
structure Bubbles (L S : Type) where
  listSetWidth : L → Int → L
  listSetItems : L → List item → L
  listSelectedItem : L → Option item
  listUpdate : L → Msg → L × Cmd
  listView : L → List Char
  spinnerUpdate : S → Msg → S × Cmd
  spinnerView : S → List Char
  quitText : List Char

/-- The struct `model`. -/
structure model (L S : Type) where
  spinner : S
  list : L
  output : List (List Char)
  readOutput : Bool
  quitting : Bool
  loading : Bool

/-- Result of one `Update`: the returned model and command, and the package
handed to `execPackage` when the step started the install. -/
structure Step (L S : Type) where
  m : model L S
  cmd : Cmd
  started : Option (List Char)

/-- The method `model.Update`. -/
def Update {L S : Type} (lib : Bubbles L S) (m : model L S) (msg : Msg) : Step L S :=
  let toList : Step L S :=
    ⟨{ m with list := (lib.listUpdate m.list msg).1 }, (lib.listUpdate m.list msg).2, none⟩
  match msg with
  | .WindowSizeMsg w _ => ⟨{ m with list := lib.listSetWidth m.list w }, .nil, none⟩
  | .KeyMsg key =>
    if m.loading then
      if key = "q".data ∨ key = "ctrl+c".data then ⟨{ m with quitting := true }, .Quit, none⟩
      else ⟨m, .nil, none⟩
    else if key = "q".data ∨ key = "ctrl+c".data then
      ⟨{ m with quitting := true }, .Quit, none⟩
    else if key = "enter".data then
      match lib.listSelectedItem m.list with
      | some i => ⟨m, .nil, some i.Package⟩
      | none => ⟨m, .Quit, none⟩
    else toList
  | .TickMsg _ =>
    ⟨{ m with spinner := (lib.spinnerUpdate m.spinner msg).1 },
      (lib.spinnerUpdate m.spinner msg).2, none⟩
  | .searchLoadMsg => ⟨{ m with loading := true }, .nil, none⟩
  | .searchDoneMsg => ⟨{ m with loading := false }, .nil, none⟩
  | .searchResultMsg items => ⟨{ m with list := lib.listSetItems m.list items }, .nil, none⟩
  | .outputMsg line => ⟨{ m with readOutput := true, output := m.output ++ [line] }, .nil, none⟩
  | .outputDoneMsg => ⟨m, .Quit, none⟩
  | .other _ => toList

/-- The method `model.View`. -/
def View {L S : Type} (lib : Bubbles L S) (m : model L S) : List Char :=
  if m.quitting then lib.quitText
  else if m.loading then
    "\n  ".data ++ lib.spinnerView m.spinner ++ " Searching for packages...".data
  else if m.readOutput then
    m.output.foldl (fun s output => s ++ (output ++ "\n".data)) []
  else "\n".data ++ lib.listView m.list

/-- The four screens between which `View` chooses. -/
inductive Screen where
  | Quitting
  | Loading
  | Executing
  | Listing
deriving DecidableEq, Repr

/-- The screen that `View` selects from the flags of the model. -/
def screen {L S : Type} (m : model L S) : Screen :=
  if m.quitting then .Quitting
  else if m.loading then .Loading
  else if m.readOutput then .Executing
  else .Listing

/-- The event loop on a list of messages: `Update` applied to each in turn;
the final model and the commands returned, in order. -/
def runUpdates {L S : Type} (lib : Bubbles L S) :
    model L S → List Msg → model L S × List Cmd
  | m, [] => (m, [])
  | m, msg :: rest =>
    ((runUpdates lib (Update lib m msg).m rest).1,
      (Update lib m msg).cmd :: (runUpdates lib (Update lib m msg).m rest).2)

/-- A list component that only stores its items and width, with a spinner
that does nothing: the smallest instance of `Bubbles`. -/
def plainBubbles : Bubbles (List item × Int) Unit where
  listSetWidth := fun l w => (l.1, w)
  listSetItems := fun l items => (items, l.2)
  listSelectedItem := fun l => l.1.head?
  listUpdate := fun l _ => (l, Cmd.nil)
  listView := fun _ => []
  spinnerUpdate := fun s _ => (s, Cmd.nil)
  spinnerView := fun _ => []
  quitText := []

/-! ## Notions used to state the properties -/

/-- A non-empty string of decimal digits. -/
def isDigits (ds : List Char) : Bool := !ds.isEmpty && ds.all isDigit

/-- The text `<dx>.<dy>.<dz>`. -/
def dotted (dx dy dz : List Char) : List Char := dx ++ '.' :: (dy ++ '.' :: dz)

/-- The line ends in `refs/tags/v<dx>.<dy>.<dz>`, the three parts being
non-empty strings of digits. -/
def LineEndsInTag (line dx dy dz : List Char) : Prop :=
  isDigits dx = true ∧ isDigits dy = true ∧ isDigits dz = true ∧
    ∃ pre : List Char, line = pre ++ ("refs/tags/v".data ++ dotted dx dy dz)

/-- Some line of the output of `git ls-remote` ends in
`refs/tags/v<dx>.<dy>.<dz>`. -/
def Matched (output dx dy dz : List Char) : Prop :=
  ∃ line ∈ strings_Split output '\n', LineEndsInTag line dx dy dz

/-- The triple `x` is greater than `y`, compared component by component in
the order major, minor, patch. -/
def tripleGreater (x y : Nat × Nat × Nat) : Prop :=
  x.1 > y.1 ∨ (x.1 = y.1 ∧ (x.2.1 > y.2.1 ∨ (x.2.1 = y.2.1 ∧ x.2.2 > y.2.2)))

/-! ## Inputs used as examples -/

/-- Output of `git ls-remote --tags origin` with three version tags and the
peeled entry of an annotated one. -/
def lsRemoteThree : List Char :=
  "1a\trefs/tags/v1.0.0\n2b\trefs/tags/v1.10.0\n2b\trefs/tags/v1.10.0^\x7b\x7d\n3c\trefs/tags/v1.9.9\n".data

/-- Output of `git ls-remote --tags origin` in which one tag has a major
number of 2^63, one more than the largest `int`. -/
def lsRemoteHuge : List Char :=
  "1a\trefs/tags/v1.0.0\n2b\trefs/tags/v9223372036854775808.0.0\n".data

/-- An element with the given tag, `class` attribute and children. -/
def classed (tag cls : List Char) (children : List Node) : Node :=
  .element ⟨tag, [("class".data, cls)]⟩ children

/-- A page without the results container, as served for a package page. -/
def docPackagePage : Document :=
  ⟨[.element ⟨"html".data, []⟩
    [.element ⟨"body".data, []⟩ [classed "main".data "go-Main".data [.text "gkit".data]]]]⟩

/-- A page whose results container holds no snippet. -/
def docNoSnippet : Document :=
  ⟨[.element ⟨"html".data, []⟩
    [.element ⟨"body".data, []⟩
      [classed "div".data "go-Content SearchResults".data [.text "No results".data]]]]⟩

/-- A page with one snippet that has two elements under the sub-entry
selector. -/
def docTwoSubs : Document :=
  ⟨[.element ⟨"html".data, []⟩
    [.element ⟨"body".data, []⟩
      [classed "div".data "go-Content SearchResults".data
        [classed "div".data "SearchSnippet".data
          [classed "span".data "SearchSnippet-header-path".data
              [.text "(github.com/a/b)".data],
            .element ⟨"a".data, [("aria-label".data, "Go to Imported By".data)]⟩
              [.element ⟨"strong".data, []⟩ [.text "42".data]],
            classed "div".data "SearchSnippet-sub go-textSubtle".data
              [.element ⟨"strong".data, []⟩ [.text "Other packages in module m:".data],
               .element ⟨"strong".data, []⟩ [.text "n".data]]]]]]]⟩

/-- A model on the Executing screen: one line of output was read. -/
def modelExecuting : model (List item × Int) Unit :=
  ⟨(), ([⟨"a".data, [], []⟩], 30), ["go: downloading a".data], true, false, false⟩

/-- The environment in which the remote has no tag at all and every git
command succeeds. -/
def gitNoTags : Git := ⟨[], none, fun _ => none⟩

/-! # Properties -/

set_option maxRecDepth 8000

/-! ## Digits, splitting and the tag pattern -/

theorem isDigit_ne_dot {c : Char} (h : isDigit c = true) : c ≠ '.' := by
  rintro rfl; revert h; decide

theorem takeWhile_all (p : Char → Bool) (l : List Char) : (l.takeWhile p).all p = true := by
  induction l with
  | nil => simp
  | cons x xs ih =>
    by_cases hx : p x = true
    · simp [List.takeWhile_cons, hx, ih]
    · simp [List.takeWhile_cons, hx]

theorem span_digits (dx rest : List Char) (hd : dx.all isDigit = true)
    (hr : ∀ c ∈ rest.head?, isDigit c = false) :
    (dx ++ rest).takeWhile isDigit = dx ∧ (dx ++ rest).dropWhile isDigit = rest := by
  induction dx with
  | nil =>
    cases rest with
    | nil => simp
    | cons r rs =>
      have : isDigit r = false := hr r (by simp)
      simp [List.takeWhile_cons, List.dropWhile_cons, this]
  | cons x xs ih =>
    simp only [List.all_cons, Bool.and_eq_true] at hd
    obtain ⟨h1, h2⟩ := ih hd.2
    simp [List.takeWhile_cons, List.dropWhile_cons, hd.1, h1, h2]

theorem isDigits_iff (ds : List Char) :
    isDigits ds = true ↔ ds ≠ [] ∧ ds.all isDigit = true := by
  cases ds <;> simp [isDigits]

theorem matchVersionToEnd_dotted (dx dy dz : List Char) (hx : isDigits dx = true)
    (hy : isDigits dy = true) (hz : isDigits dz = true) :
    matchVersionToEnd (dotted dx dy dz) = true := by
  rw [isDigits_iff] at hx hy hz
  have hdot : ∀ (rest : List Char) (c : Char), c ∈ ('.' :: rest).head? → isDigit c = false := by
    intro rest c hc
    simp only [List.head?_cons, Option.mem_def, Option.some.injEq] at hc
    subst hc
    decide
  obtain ⟨a1, a2⟩ := span_digits dx ('.' :: (dy ++ '.' :: dz)) hx.2 (hdot _)
  obtain ⟨b1, b2⟩ := span_digits dy ('.' :: dz) hy.2 (hdot _)
  unfold matchVersionToEnd dotted
  simp only [a1, a2, b1, b2]
  have ex : dx.isEmpty = false := by cases dx <;> simp_all
  have ey : dy.isEmpty = false := by cases dy <;> simp_all
  have ez : dz.isEmpty = false := by cases dz <;> simp_all
  simp [ex, ey, ez, hz.2]

theorem matchVersionToEnd_elim (m : List Char) (h : matchVersionToEnd m = true) :
    ∃ dx dy dz : List Char, isDigits dx = true ∧ isDigits dy = true ∧ isDigits dz = true ∧
      m = dotted dx dy dz := by
  unfold matchVersionToEnd at h
  simp only [] at h
  have hm := List.takeWhile_append_dropWhile isDigit m
  cases h1 : m.dropWhile isDigit with
  | nil => simp [h1] at h
  | cons d1 t1 =>
    rw [h1] at h hm
    simp only [] at h
    have ht := List.takeWhile_append_dropWhile isDigit t1
    cases h2 : t1.dropWhile isDigit with
    | nil => simp [h2] at h
    | cons d2 t2 =>
      rw [h2] at h ht
      simp only [Bool.and_eq_true, Bool.not_eq_true', decide_eq_true_eq] at h
      obtain ⟨⟨⟨⟨⟨ha, hd1⟩, hb⟩, hd2⟩, hc⟩, hall⟩ := h
      refine ⟨m.takeWhile isDigit, t1.takeWhile isDigit, t2, ?_, ?_, ?_, ?_⟩
      · simp [isDigits, ha, takeWhile_all]
      · simp [isDigits, hb, takeWhile_all]
      · simp [isDigits, hc, hall]
      · subst hd1 hd2
        unfold dotted
        rw [ht]
        exact hm.symm

theorem dotted_chars (dx dy dz : List Char) (hx : isDigits dx = true)
    (hy : isDigits dy = true) (hz : isDigits dz = true) :
    ∀ c ∈ dotted dx dy dz, isDigit c = true ∨ c = '.' := by
  rw [isDigits_iff] at hx hy hz
  intro c hc
  simp only [dotted, List.mem_append, List.mem_cons] at hc
  rcases hc with h | h | h | h | h
  · exact Or.inl (List.all_eq_true.mp hx.2 c h)
  · exact Or.inr h
  · exact Or.inl (List.all_eq_true.mp hy.2 c h)
  · exact Or.inr h
  · exact Or.inl (List.all_eq_true.mp hz.2 c h)

theorem matchVersionToEnd_no_v (m : List Char) (h : matchVersionToEnd m = true) :
    'v' ∉ m := by
  obtain ⟨dx, dy, dz, hx, hy, hz, rfl⟩ := matchVersionToEnd_elim m h
  intro hv
  rcases dotted_chars dx dy dz hx hy hz 'v' hv with h1 | h1
  · revert h1; decide
  · revert h1; decide

theorem FindStringSubmatch_sound (line m : List Char) (h : FindStringSubmatch line = some m) :
    matchVersionToEnd m = true ∧ ∃ pre : List Char, line = pre ++ ("refs/tags/v".data ++ m) := by
  induction line with
  | nil => simp [FindStringSubmatch] at h
  | cons c cs ih =>
    unfold FindStringSubmatch at h
    split_ifs at h with hc
    · simp only [Bool.and_eq_true] at hc
      simp only [Option.some.injEq] at h
      subst h
      refine ⟨hc.2, [], ?_⟩
      have hp := List.isPrefixOf_iff_prefix.mp hc.1
      obtain ⟨t, ht⟩ := hp
      rw [← ht]
      simp
    · obtain ⟨h1, pre, hpre⟩ := ih h
      exact ⟨h1, c :: pre, by simp [hpre]⟩

theorem FindStringSubmatch_complete (pre m : List Char) (h : matchVersionToEnd m = true) :
    FindStringSubmatch (pre ++ ("refs/tags/v".data ++ m)) = some m := by
  induction pre with
  | nil =>
    have h1 : "refs/tags/v".data.isPrefixOf ("refs/tags/v".data ++ m) = true := by
      rw [List.isPrefixOf_iff_prefix]; exact List.prefix_append _ _
    have h2 : ("refs/tags/v".data ++ m).drop 11 = m := by
      have : "refs/tags/v".data.length = 11 := by decide
      rw [← this, List.drop_left]
    show FindStringSubmatch ('r' :: ("efs/tags/v".data ++ m)) = some m
    unfold FindStringSubmatch
    have e : ('r' :: ("efs/tags/v".data ++ m)) = "refs/tags/v".data ++ m := rfl
    rw [e, h1, h2, h]
    simp
  | cons p ps ih =>
    show FindStringSubmatch (p :: (ps ++ ("refs/tags/v".data ++ m))) = some m
    unfold FindStringSubmatch
    split_ifs with hc
    · exfalso
      simp only [Bool.and_eq_true] at hc
      have hv := matchVersionToEnd_no_v _ hc.2
      apply hv
      have e : p :: (ps ++ ("refs/tags/v".data ++ m))
          = (p :: (ps ++ "refs/tags/".data)) ++ ('v' :: m) := by simp
      rw [e, List.drop_append_of_le_length (by simp)]
      simp
    · exact ih

theorem collectTags_eq (lines : List (List Char)) :
    collectTags lines
      = lines.filterMap (fun line => (FindStringSubmatch line).map (fun m => 'v' :: m)) := by
  have key : ∀ (init : List (List Char)),
      lines.foldl (fun tags line =>
        match FindStringSubmatch line with
        | some m => tags ++ ['v' :: m]
        | none => tags) init
      = init ++ lines.filterMap
          (fun line => (FindStringSubmatch line).map (fun m => 'v' :: m)) := by
    induction lines with
    | nil => simp
    | cons l ls ih =>
      intro init
      simp only [List.foldl_cons, List.filterMap_cons]
      cases hf : FindStringSubmatch l with
      | none => simp [ih]
      | some m => simp [ih]
  simpa [collectTags] using key []

theorem mem_collectTags_iff (lines : List (List Char)) (tag : List Char) :
    tag ∈ collectTags lines ↔
      ∃ dx dy dz : List Char, tag = 'v' :: dotted dx dy dz ∧
        ∃ line ∈ lines, LineEndsInTag line dx dy dz := by
  rw [collectTags_eq]
  simp only [List.mem_filterMap, Option.map_eq_some']
  constructor
  · rintro ⟨line, hl, m, hm, rfl⟩
    obtain ⟨h1, pre, hpre⟩ := FindStringSubmatch_sound line m hm
    obtain ⟨dx, dy, dz, hx, hy, hz, rfl⟩ := matchVersionToEnd_elim m h1
    exact ⟨dx, dy, dz, rfl, line, hl, hx, hy, hz, pre, hpre⟩
  · rintro ⟨dx, dy, dz, rfl, line, hl, hx, hy, hz, pre, hpre⟩
    refine ⟨line, hl, dotted dx dy dz, ?_, rfl⟩
    rw [hpre]
    exact FindStringSubmatch_complete pre _ (matchVersionToEnd_dotted dx dy dz hx hy hz)

theorem tripleGreater_irrefl (x : Nat × Nat × Nat) : ¬ tripleGreater x x := by
  unfold tripleGreater; omega

theorem tripleGreater_trans {x y z : Nat × Nat × Nat} (h1 : tripleGreater x y)
    (h2 : tripleGreater y z) : tripleGreater x z := by
  unfold tripleGreater at *; omega

/-- The loop of `getLatestTag` keeps a tag of the list than which none is
greater, when `gt` decides `greater` on the keys of the tags. -/
theorem foldl_latest {α : Type} (key : α → Nat × Nat × Nat) (gt : α → α → Prop)
    [∀ a b, Decidable (gt a b)]
    (first : α) (rest : List α)
    (hgt : ∀ a ∈ first :: rest, ∀ b ∈ first :: rest,
      (gt a b ↔ tripleGreater (key a) (key b))) :
    rest.foldl (fun latest tag => if gt tag latest then tag else latest) first ∈ first :: rest ∧
    ∀ t ∈ first :: rest, ¬ tripleGreater (key t)
      (key (rest.foldl (fun latest tag => if gt tag latest then tag else latest) first)) := by
  suffices H : ∀ (seen : List α) (cur : α), cur ∈ seen →
      (∀ t ∈ seen, ¬ tripleGreater (key t) (key cur)) →
      (∀ a ∈ seen ++ rest, ∀ b ∈ seen ++ rest, (gt a b ↔ tripleGreater (key a) (key b))) →
      rest.foldl (fun latest tag => if gt tag latest then tag else latest) cur ∈ seen ++ rest ∧
      ∀ t ∈ seen ++ rest, ¬ tripleGreater (key t)
        (key (rest.foldl (fun latest tag => if gt tag latest then tag else latest) cur)) by
    have := H [first] first (by simp)
      (by intro t ht; simp at ht; subst ht; exact tripleGreater_irrefl _) (by simpa using hgt)
    simpa using this
  clear hgt
  induction rest with
  | nil =>
    intro seen cur hc hmax _
    simpa using ⟨hc, hmax⟩
  | cons x xs ih =>
    intro seen cur hc hmax hgt
    simp only [List.foldl_cons]
    have hx : x ∈ seen ++ x :: xs := by simp
    have hcur : cur ∈ seen ++ x :: xs := by simp [hc]
    have e : seen ++ x :: xs = (seen ++ [x]) ++ xs := by simp
    rw [e] at hgt ⊢
    by_cases hg : gt x cur
    · simp only [hg, if_true]
      have hg2 := (hgt x (by simp) cur (by simp [hc])).mp hg
      refine ih (seen ++ [x]) x (by simp) ?_ hgt
      intro t ht
      simp only [List.mem_append, List.mem_singleton] at ht
      rcases ht with ht | rfl
      · intro h3
        exact hmax t ht (tripleGreater_trans h3 hg2)
      · exact tripleGreater_irrefl _
    · simp only [hg, if_false]
      refine ih (seen ++ [x]) cur (by simp [hc]) ?_ hgt
      intro t ht
      simp only [List.mem_append, List.mem_singleton] at ht
      rcases ht with ht | rfl
      · exact hmax t ht
      · intro h3
        exact hg ((hgt t (by simp) cur (by simp [hc])).mpr h3)

theorem isDigit_ne_plus {c : Char} (h : isDigit c = true) : c ≠ '+' := by
  rintro rfl; revert h; decide

theorem isDigit_ne_minus {c : Char} (h : isDigit c = true) : c ≠ '-' := by
  rintro rfl; revert h; decide

theorem splitAux_append (sep : Char) (a rest cur : List Char)
    (h : ∀ c ∈ a, c ≠ sep) :
    splitAux (fun c => c == sep) (a ++ rest) cur
      = splitAux (fun c => c == sep) rest (a.reverse ++ cur) := by
  induction a generalizing cur with
  | nil => simp
  | cons x xs ih =>
    have hx : x ≠ sep := h x (by simp)
    have hxs : ∀ c ∈ xs, c ≠ sep := fun c hc => h c (by simp [hc])
    simp [splitAux, hx, ih _ hxs]

theorem splitAux_noSep (sep : Char) (a cur : List Char) (h : ∀ c ∈ a, c ≠ sep) :
    splitAux (fun c => c == sep) a cur = [cur.reverse ++ a] := by
  have := splitAux_append sep a [] cur h
  simp [splitAux] at this
  simpa using this

theorem split_dotted (dx dy dz : List Char)
    (hx : isDigits dx = true) (hy : isDigits dy = true) (hz : isDigits dz = true) :
    strings_Split (dotted dx dy dz) '.' = [dx, dy, dz] := by
  rw [isDigits_iff] at hx hy hz
  have nx : ∀ c ∈ dx, c ≠ '.' := fun c hc => isDigit_ne_dot (List.all_eq_true.mp hx.2 c hc)
  have ny : ∀ c ∈ dy, c ≠ '.' := fun c hc => isDigit_ne_dot (List.all_eq_true.mp hy.2 c hc)
  have nz : ∀ c ∈ dz, c ≠ '.' := fun c hc => isDigit_ne_dot (List.all_eq_true.mp hz.2 c hc)
  unfold strings_Split dotted
  rw [splitAux_append _ _ _ _ nx]
  simp only [splitAux, beq_self_eq_true, if_true, List.append_nil, List.reverse_reverse]
  rw [splitAux_append _ _ _ _ ny]
  simp only [splitAux, beq_self_eq_true, if_true, List.append_nil, List.reverse_reverse]
  rw [splitAux_noSep _ _ _ nz]
  simp

theorem dotted_inj {dx dy dz ex ey ez : List Char}
    (hx : isDigits dx = true) (hy : isDigits dy = true) (hz : isDigits dz = true)
    (gx : isDigits ex = true) (gy : isDigits ey = true) (gz : isDigits ez = true)
    (h : dotted dx dy dz = dotted ex ey ez) : dx = ex ∧ dy = ey ∧ dz = ez := by
  have h1 := split_dotted dx dy dz hx hy hz
  rw [h, split_dotted ex ey ez gx gy gz] at h1
  simp only [List.cons.injEq, and_true] at h1
  exact ⟨h1.1.symm, h1.2.1.symm, h1.2.2.symm⟩

theorem atoi_digits (ds : List Char) (hd : isDigits ds = true)
    (hr : (digitsValue ds : Int) ≤ maxInt) :
    strconv_Atoi ds = some (digitsValue ds : Int) := by
  rw [isDigits_iff] at hd
  cases ds with
  | nil => exact absurd rfl hd.1
  | cons c cs =>
    have hc : isDigit c = true := List.all_eq_true.mp hd.2 c (by simp)
    simp only [strconv_Atoi, isDigit_ne_plus hc, isDigit_ne_minus hc, if_false]
    simp [atoiDigits, hd.2, hr]

theorem wrapInt_succ (x : Int) (h0 : 0 ≤ x) (h1 : x < maxInt) : wrapInt (x + 1) = x + 1 := by
  unfold wrapInt
  unfold maxInt at h1
  rw [Int.emod_eq_of_lt (by omega) (by omega)]
  omega

theorem extractVersionParts_digits (dx dy dz : List Char)
    (hx : isDigits dx = true) (hy : isDigits dy = true) (hz : isDigits dz = true)
    (bx : (digitsValue dx : Int) ≤ maxInt) (by_ : (digitsValue dy : Int) ≤ maxInt)
    (bz : (digitsValue dz : Int) ≤ maxInt) :
    extractVersionParts ('v' :: dotted dx dy dz)
      = ((digitsValue dx : Int), (digitsValue dy : Int), (digitsValue dz : Int)) := by
  have hp : strings_TrimPrefix ('v' :: dotted dx dy dz) "v".data = dotted dx dy dz := by
    simp [strings_TrimPrefix, List.isPrefixOf]
  simp only [extractVersionParts, hp, split_dotted dx dy dz hx hy hz, versionPart,
    List.get?, atoi_digits dx hx bx, atoi_digits dy hy by_, atoi_digits dz hz bz]

theorem formatInt_natCast (n : Nat) : formatInt (n : Int) = Nat.toDigits 10 n := by
  unfold formatInt
  have h : ¬ ((n : Int) < 0) := by omega
  simp [h]

/-- Claim C8: for every version string `vX.Y.Z` whose three parts are
non-empty strings of decimal digits with values below the largest `int`,
`incrementVersion` returns, without error, `v(X+1).0.0` when the type
lower-cases to `major`, `vX.(Y+1).0` when it lower-cases to `minor` and
`vX.Y.(Z+1)` when it lower-cases to `patch`, the numbers printed in decimal;
and for a type that lower-cases to none of the three it returns the empty
string and an error, whatever the version string. -/
theorem incrementVersion_spec (tbl : Char → Char) (dx dy dz t : List Char)
    (hx : isDigits dx = true) (hy : isDigits dy = true) (hz : isDigits dz = true)
    (bx : (digitsValue dx : Int) < maxInt) (by_ : (digitsValue dy : Int) < maxInt)
    (bz : (digitsValue dz : Int) < maxInt) :
    (strings_ToLower tbl t = "major".data →
      incrementVersion tbl ('v' :: dotted dx dy dz) t
        = ('v' :: dotted (Nat.toDigits 10 (digitsValue dx + 1)) "0".data "0".data, none)) ∧
    (strings_ToLower tbl t = "minor".data →
      incrementVersion tbl ('v' :: dotted dx dy dz) t
        = ('v' :: dotted (Nat.toDigits 10 (digitsValue dx))
            (Nat.toDigits 10 (digitsValue dy + 1)) "0".data, none)) ∧
    (strings_ToLower tbl t = "patch".data →
      incrementVersion tbl ('v' :: dotted dx dy dz) t
        = ('v' :: dotted (Nat.toDigits 10 (digitsValue dx)) (Nat.toDigits 10 (digitsValue dy))
            (Nat.toDigits 10 (digitsValue dz + 1)), none)) ∧
    (∀ version : List Char,
      strings_ToLower tbl t ≠ "major".data → strings_ToLower tbl t ≠ "minor".data →
      strings_ToLower tbl t ≠ "patch".data →
      incrementVersion tbl version t
        = ([], some ("invalid version type: ".data ++ t
            ++ ", should be major, minor, or patch".data))) := by
  have hp := extractVersionParts_digits dx dy dz hx hy hz (le_of_lt bx) (le_of_lt by_)
    (le_of_lt bz)
  have wx : wrapInt ((digitsValue dx : Int) + 1) = ((digitsValue dx + 1 : Nat) : Int) := by
    rw [wrapInt_succ _ (by omega) bx]; push_cast; rfl
  have wy : wrapInt ((digitsValue dy : Int) + 1) = ((digitsValue dy + 1 : Nat) : Int) := by
    rw [wrapInt_succ _ (by omega) by_]; push_cast; rfl
  have wz : wrapInt ((digitsValue dz : Int) + 1) = ((digitsValue dz + 1 : Nat) : Int) := by
    rw [wrapInt_succ _ (by omega) bz]; push_cast; rfl
  have f0 : formatInt 0 = "0".data := by decide
  refine ⟨?_, ?_, ?_, ?_⟩
  · intro ht
    simp only [incrementVersion, ht, hp, if_true, wx, sprintfVersion, f0, formatInt_natCast]
    simp [dotted]
  · intro ht
    have h1 : ¬ ("minor".data = "major".data) := by decide
    simp only [incrementVersion, ht, hp, h1, if_true, if_false, wy, sprintfVersion, f0,
      formatInt_natCast]
    simp [dotted]
  · intro ht
    have h1 : ¬ ("patch".data = "major".data) := by decide
    have h2 : ¬ ("patch".data = "minor".data) := by decide
    simp only [incrementVersion, ht, hp, h1, h2, if_true, if_false, wz, sprintfVersion,
      formatInt_natCast]
    simp [dotted]
  · intro version h1 h2 h3
    simp only [incrementVersion, h1, h2, h3, if_false]

theorem incrementVersion_spec_witness :
    incrementVersion id "v1.2.3".data "MAJOR".data = ("v2.0.0".data, none) ∧
    incrementVersion id "v1.2.3".data "Minor".data = ("v1.3.0".data, none) ∧
    incrementVersion id "v1.2.3".data "patch".data = ("v1.2.4".data, none) ∧
    incrementVersion id "v1.2.3".data "build".data
      = ([], some "invalid version type: build, should be major, minor, or patch".data) :=
  ⟨(incrementVersion_spec id "1".data "2".data "3".data "MAJOR".data (by decide) (by decide)
      (by decide) (by decide) (by decide) (by decide)).1 (by decide),
   (incrementVersion_spec id "1".data "2".data "3".data "Minor".data (by decide) (by decide)
      (by decide) (by decide) (by decide) (by decide)).2.1 (by decide),
   (incrementVersion_spec id "1".data "2".data "3".data "patch".data (by decide) (by decide)
      (by decide) (by decide) (by decide) (by decide)).2.2.1 (by decide),
   (incrementVersion_spec id "1".data "2".data "3".data "build".data (by decide) (by decide)
      (by decide) (by decide) (by decide) (by decide)).2.2.2 "v1.2.3".data (by decide)
      (by decide) (by decide)⟩

/-! ## The latest tag -/

theorem compareVersions_gt_iff (dx dy dz ex ey ez : List Char)
    (hx : isDigits dx = true) (hy : isDigits dy = true) (hz : isDigits dz = true)
    (gx : isDigits ex = true) (gy : isDigits ey = true) (gz : isDigits ez = true)
    (bd : (digitsValue dx : Int) ≤ maxInt ∧ (digitsValue dy : Int) ≤ maxInt ∧
      (digitsValue dz : Int) ≤ maxInt)
    (be : (digitsValue ex : Int) ≤ maxInt ∧ (digitsValue ey : Int) ≤ maxInt ∧
      (digitsValue ez : Int) ≤ maxInt) :
    compareVersions ('v' :: dotted dx dy dz) ('v' :: dotted ex ey ez) > 0 ↔
      tripleGreater (digitsValue dx, digitsValue dy, digitsValue dz)
        (digitsValue ex, digitsValue ey, digitsValue ez) := by
  simp only [compareVersions, extractVersionParts_digits dx dy dz hx hy hz bd.1 bd.2.1 bd.2.2,
    extractVersionParts_digits ex ey ez gx gy gz be.1 be.2.1 be.2.2, compareLoop,
    tripleGreater]
  split_ifs <;> omega

/-- The key of a tag: the triple that `extractVersionParts` reads from it. -/
theorem versionKey_dotted (dx dy dz : List Char)
    (hx : isDigits dx = true) (hy : isDigits dy = true) (hz : isDigits dz = true)
    (bd : (digitsValue dx : Int) ≤ maxInt ∧ (digitsValue dy : Int) ≤ maxInt ∧
      (digitsValue dz : Int) ≤ maxInt) :
    ((extractVersionParts ('v' :: dotted dx dy dz)).1.toNat,
      (extractVersionParts ('v' :: dotted dx dy dz)).2.1.toNat,
      (extractVersionParts ('v' :: dotted dx dy dz)).2.2.toNat)
      = (digitsValue dx, digitsValue dy, digitsValue dz) := by
  rw [extractVersionParts_digits dx dy dz hx hy hz bd.1 bd.2.1 bd.2.2]
  simp

theorem split_nil_no_tag (dx dy dz : List Char) : ¬ Matched [] dx dy dz := by
  rintro ⟨line, hl, _, _, _, pre, hpre⟩
  have : line = [] := by simpa [strings_Split, splitAux] using hl
  subst this
  have := congrArg List.length hpre
  simp at this
  omega

/-- Claim C9, amended: when every tag `v<digits>.<digits>.<digits>` that ends
a line of the `git ls-remote` output has its three numbers at most the largest
`int`, then, if there is such a line, `getLatestTag` returns without error one
of those tags, and no such tag has a greater (major, minor, patch) triple; and
if there is no such line it returns an error with the empty string. -/
theorem getLatestTag_latest (output : List Char)
    (hb : ∀ dx dy dz : List Char, Matched output dx dy dz →
      (digitsValue dx : Int) ≤ maxInt ∧ (digitsValue dy : Int) ≤ maxInt ∧
        (digitsValue dz : Int) ≤ maxInt) :
    ((∃ dx dy dz : List Char, Matched output dx dy dz) →
      ∃ dx dy dz : List Char, Matched output dx dy dz ∧
        getLatestTag output none = ('v' :: dotted dx dy dz, none) ∧
        ∀ ex ey ez : List Char, Matched output ex ey ez →
          ¬ tripleGreater (digitsValue ex, digitsValue ey, digitsValue ez)
            (digitsValue dx, digitsValue dy, digitsValue dz)) ∧
    ((¬ ∃ dx dy dz : List Char, Matched output dx dy dz) →
      ∃ e : List Char, getLatestTag output none = ([], some e)) := by
  have hmem := mem_collectTags_iff (strings_Split output '\n')
  constructor
  · rintro ⟨mx, my, mz, hm⟩
    have hout : output.length ≠ 0 := by
      intro h0
      have : output = [] := List.length_eq_zero.mp h0
      subst this
      exact split_nil_no_tag mx my mz hm
    have hin : ('v' :: dotted mx my mz) ∈ collectTags (strings_Split output '\n') :=
      (hmem _).mpr ⟨mx, my, mz, rfl, hm⟩
    cases htags : collectTags (strings_Split output '\n') with
    | nil => rw [htags] at hin; simp at hin
    | cons first rest =>
      have hform : ∀ t ∈ first :: rest, ∃ dx dy dz : List Char,
          t = 'v' :: dotted dx dy dz ∧ Matched output dx dy dz := by
        intro t ht
        rw [← htags] at ht
        exact (hmem t).mp ht
      have hgt : ∀ a ∈ first :: rest, ∀ b ∈ first :: rest,
          (compareVersions a b > 0 ↔
            tripleGreater
              ((extractVersionParts a).1.toNat, (extractVersionParts a).2.1.toNat,
                (extractVersionParts a).2.2.toNat)
              ((extractVersionParts b).1.toNat, (extractVersionParts b).2.1.toNat,
                (extractVersionParts b).2.2.toNat)) := by
        intro a ha b hb2
        obtain ⟨ax, ay, az, rfl, hma⟩ := hform a ha
        obtain ⟨bx, by_, bz, rfl, hmb⟩ := hform b hb2
        obtain ⟨la, _, ha1, ha2, ha3, _⟩ := hma
        obtain ⟨lb, _, hb1, hb3, hb4, _⟩ := hmb
        have ba := hb ax ay az (by exact ⟨la, ‹_›, ha1, ha2, ha3, ‹_›⟩)
        have bb := hb bx by_ bz (by exact ⟨lb, ‹_›, hb1, hb3, hb4, ‹_›⟩)
        rw [versionKey_dotted ax ay az ha1 ha2 ha3 ba,
          versionKey_dotted bx by_ bz hb1 hb3 hb4 bb]
        exact compareVersions_gt_iff ax ay az bx by_ bz ha1 ha2 ha3 hb1 hb3 hb4 ba bb
      obtain ⟨hr1, hr2⟩ := foldl_latest
        (fun t => ((extractVersionParts t).1.toNat, (extractVersionParts t).2.1.toNat,
          (extractVersionParts t).2.2.toNat))
        (fun a b => compareVersions a b > 0) first rest hgt
      obtain ⟨rx, ry, rz, hreq, hrm⟩ := hform _ hr1
      refine ⟨rx, ry, rz, hrm, ?_, ?_⟩
      · simp only [getLatestTag, hout, if_false, htags]
        rw [← hreq]
      · intro ex ey ez hme
        have he : ('v' :: dotted ex ey ez) ∈ first :: rest := by
          rw [← htags]; exact (hmem _).mpr ⟨ex, ey, ez, rfl, hme⟩
        have := hr2 _ he
        rw [hreq] at this
        obtain ⟨le, hle, he1, he2, he3, hpe⟩ := hme
        obtain ⟨lr, hlr, hr3, hr4, hr5, hpr⟩ := hrm
        have be := hb ex ey ez ⟨le, hle, he1, he2, he3, hpe⟩
        have br := hb rx ry rz ⟨lr, hlr, hr3, hr4, hr5, hpr⟩
        rw [versionKey_dotted ex ey ez he1 he2 he3 be,
          versionKey_dotted rx ry rz hr3 hr4 hr5 br] at this
        exact this
  · intro hno
    by_cases hout : output.length = 0
    · exact ⟨"no remote tags found".data, by simp [getLatestTag, hout]⟩
    · cases htags : collectTags (strings_Split output '\n') with
      | nil =>
        exact ⟨"no semantic versioned remote tags found".data,
          by simp [getLatestTag, hout, htags]⟩
      | cons first rest =>
        exfalso
        obtain ⟨dx, dy, dz, _, hm⟩ := (hmem first).mp (by rw [htags]; simp)
        exact hno ⟨dx, dy, dz, hm⟩

theorem lsRemoteThree_bounds : ∀ dx dy dz : List Char, Matched lsRemoteThree dx dy dz →
    (digitsValue dx : Int) ≤ maxInt ∧ (digitsValue dy : Int) ≤ maxInt ∧
      (digitsValue dz : Int) ≤ maxInt := by
  intro dx dy dz hm
  have hin := (mem_collectTags_iff (strings_Split lsRemoteThree '\n')
    ('v' :: dotted dx dy dz)).mpr ⟨dx, dy, dz, rfl, hm⟩
  have hc : collectTags (strings_Split lsRemoteThree '\n')
      = ['v' :: dotted "1".data "0".data "0".data, 'v' :: dotted "1".data "10".data "0".data,
         'v' :: dotted "1".data "9".data "9".data] := by decide
  rw [hc] at hin
  obtain ⟨_, _, h1, h2, h3, _⟩ := hm
  simp only [List.mem_cons, List.cons.injEq, true_and, List.mem_singleton, List.not_mem_nil,
    or_false] at hin
  rcases hin with h | h | h
  · obtain ⟨rfl, rfl, rfl⟩ := dotted_inj h1 h2 h3 (by decide) (by decide) (by decide) h
    decide
  · obtain ⟨rfl, rfl, rfl⟩ := dotted_inj h1 h2 h3 (by decide) (by decide) (by decide) h
    decide
  · obtain ⟨rfl, rfl, rfl⟩ := dotted_inj h1 h2 h3 (by decide) (by decide) (by decide) h
    decide

theorem lsRemoteThree_matched : Matched lsRemoteThree "1".data "0".data "0".data :=
  ⟨"1a\trefs/tags/v1.0.0".data, by decide, by decide, by decide, by decide,
    "1a\t".data, by decide⟩

theorem getLatestTag_latest_witness :
    (∀ dx dy dz : List Char, Matched lsRemoteThree dx dy dz →
      (digitsValue dx : Int) ≤ maxInt ∧ (digitsValue dy : Int) ≤ maxInt ∧
        (digitsValue dz : Int) ≤ maxInt) ∧
    (∃ dx dy dz : List Char, Matched lsRemoteThree dx dy dz ∧
      getLatestTag lsRemoteThree none = ('v' :: dotted dx dy dz, none) ∧
      ∀ ex ey ez : List Char, Matched lsRemoteThree ex ey ez →
        ¬ tripleGreater (digitsValue ex, digitsValue ey, digitsValue ez)
          (digitsValue dx, digitsValue dy, digitsValue dz)) :=
  ⟨lsRemoteThree_bounds,
    (getLatestTag_latest lsRemoteThree lsRemoteThree_bounds).1
      ⟨"1".data, "0".data, "0".data, lsRemoteThree_matched⟩⟩

/-- Claim C9 fails as stated: with the tags `v1.0.0` and
`v9223372036854775808.0.0` on the remote, both matched, `getLatestTag` returns
`v1.0.0` although the other tag has the greater major number;
`compareVersions` ranks the large tag below `v1.0.0` because the number does
not fit an `int` and is read as 0. -/
theorem getLatestTag_overflow :
    Matched lsRemoteHuge "9223372036854775808".data "0".data "0".data ∧
    getLatestTag lsRemoteHuge none = ("v1.0.0".data, none) ∧
    compareVersions "v9223372036854775808.0.0".data "v1.0.0".data = -1 ∧
    tripleGreater
      (digitsValue "9223372036854775808".data, digitsValue "0".data, digitsValue "0".data)
      (digitsValue "1".data, digitsValue "0".data, digitsValue "0".data) :=
  ⟨⟨"2b\trefs/tags/v9223372036854775808.0.0".data, by decide, by decide, by decide, by decide,
      "2b\t".data, by decide⟩,
    by decide, by decide, Or.inl (by decide)⟩
/-! ## The search -/

theorem foldl_append_eq_flatMap {α β : Type} (f : α → List β) (l : List α) (init : List β) :
    l.foldl (fun result s => result ++ f s) init = init ++ l.flatMap f := by
  induction l generalizing init with
  | nil => simp
  | cons x xs ih => simp [List.foldl, ih, List.flatMap_cons, List.append_assoc]

theorem snippetItems_ne_nil (s : Located) : snippetItems s ≠ [] := by
  unfold snippetItems
  simp only []
  split <;> simp

theorem searchPkgGo_ok (kw status : List Char) (doc : Document) :
    searchPkgGo kw (.response 200 status (.ok doc))
      = if (doc.Find selResults).length = 0 then ([⟨kw, [], []⟩], none)
        else ((doc.Find selSnippet).flatMap snippetItems, none) := by
  simp [searchPkgGo, foldl_append_eq_flatMap]

/-- Claim C2: for every keyword and every document fetched with status 200
that has no `.go-Content.SearchResults` element, `searchPkgGo` returns no
error and exactly one item, whose `Package` is the keyword and whose `Star`
and `From` are empty. -/
theorem searchPkgGo_fallback (kw status : List Char) (doc : Document)
    (h : (doc.Find selResults).length = 0) :
    searchPkgGo kw (.response 200 status (.ok doc)) = ([⟨kw, [], []⟩], none) := by
  simp [searchPkgGo, h]

theorem searchPkgGo_fallback_witness :
    (docPackagePage.Find selResults).length = 0 ∧
    searchPkgGo "gkit".data (.response 200 "200 OK".data (.ok docPackagePage))
      = ([⟨"gkit".data, [], []⟩], none) :=
  ⟨by decide, searchPkgGo_fallback "gkit".data "200 OK".data docPackagePage (by decide)⟩

/-- Claim C1 fails as stated: for a document that has the
`.go-Content.SearchResults` container and no `.SearchSnippet` in it, the list
returned for a non-empty keyword is empty. -/
theorem searchPkgGo_empty_result :
    ¬ (∀ (kw status : List Char) (doc : Document), kw ≠ [] →
        1 ≤ (searchPkgGo kw (.response 200 status (.ok doc))).1.length) := by
  intro h
  have := h "gkit".data "200 OK".data docNoSnippet (by decide)
  revert this
  decide

/-- Claim C1, amended: for every keyword and every document fetched with
status 200, `searchPkgGo` returns no error, and the returned list has length
at least 1 exactly when the document has no `.go-Content.SearchResults`
container or has at least one `.SearchSnippet` inside one; the list is empty
exactly when the container is present and holds no snippet. -/
theorem searchPkgGo_length_pos_iff (kw status : List Char) (doc : Document) :
    (searchPkgGo kw (.response 200 status (.ok doc))).2 = none ∧
    (1 ≤ (searchPkgGo kw (.response 200 status (.ok doc))).1.length ↔
      ((doc.Find selResults).length = 0 ∨ doc.Find selSnippet ≠ [])) ∧
    (((doc.Find selResults).length ≠ 0 ∧ doc.Find selSnippet = []) ↔
      (searchPkgGo kw (.response 200 status (.ok doc))).1 = []) := by
  rw [searchPkgGo_ok]
  by_cases hc : (doc.Find selResults).length = 0
  · simp [hc]
  · simp only [hc, if_false, false_or, ne_eq, not_false_eq_true, true_and]
    cases hs : doc.Find selSnippet with
    | nil => simp
    | cons s rest =>
      have hne := snippetItems_ne_nil s
      have : 1 ≤ (snippetItems s).length := by
        cases hx : snippetItems s with
        | nil => exact absurd hx hne
        | cons _ _ => simp
      simp [List.flatMap_cons, hne]
      omega

/-- Claim C3 fails as stated: a snippet with two elements under the sub-entry
selector yields its parent item followed by one child item, not two; the
child is built from the concatenated text of the two elements. -/
theorem searchPkgGo_two_subs_one_child :
    (docTwoSubs.Find selResults).length = 1 ∧
    (docTwoSubs.Find selSnippet).map (fun s => (s.Find selSub).length) = [2] ∧
    searchPkgGo "a".data (.response 200 "200 OK".data (.ok docTwoSubs))
      = ([⟨"github.com/a/b".data, "42".data, []⟩,
          ⟨"m:n".data, "42".data, "github.com/a/b".data⟩], none) := by
  decide

theorem mem_zip_map_self {α β : Type} (f : α → β) (l : List α) (p : α × β)
    (hp : p ∈ l.zip (l.map f)) : p.2 = f p.1 := by
  induction l with
  | nil => simp at hp
  | cons x xs ih =>
    simp only [List.map_cons, List.zip_cons_cons, List.mem_cons] at hp
    rcases hp with rfl | hp
    · rfl
    · exact ih hp

/-- Claim C3, amended: for every document that has the results container,
the returned list is the concatenation, in document order of the snippets, of
one block per snippet: the parent item followed by at most one child item,
exactly one when the concatenated text of the elements under the sub-entry
selector is not empty. The child has `From` equal to the parent's `Package`
and `Star` equal to the parent's `Star`, and its `Package` is that text with
the first `Other packages in module ` removed and the colons trimmed. -/
theorem searchPkgGo_blocks (kw status : List Char) (doc : Document)
    (h : (doc.Find selResults).length ≠ 0) :
    ∃ blocks : List (item × List item),
      blocks.length = (doc.Find selSnippet).length ∧
      searchPkgGo kw (.response 200 status (.ok doc))
        = ((blocks.map (fun b => b.1 :: b.2)).flatten, none) ∧
      ∀ p ∈ (doc.Find selSnippet).zip blocks,
        p.2.1.Package
            = strings_Trim (strings_Trim (selectionText (p.1.Find selHeaderPath)) "(".data)
                ")".data ∧
        p.2.1.Star = selectionText (p.1.Find selImportedBy) ∧
        p.2.1.From = [] ∧
        p.2.2.length = (if selectionText (p.1.Find selSub) = [] then 0 else 1) ∧
        ∀ c ∈ p.2.2,
          c.From = p.2.1.Package ∧ c.Star = p.2.1.Star ∧
          c.Package = strings_Trim (strings_Replace1 "Other packages in module ".data []
            (selectionText (p.1.Find selSub))) ":".data := by
  refine ⟨(doc.Find selSnippet).map
    (fun s => ((snippetItems s).headD ⟨[], [], []⟩, (snippetItems s).tail)), ?_, ?_, ?_⟩
  · simp
  · rw [searchPkgGo_ok]
    simp only [h, if_false, List.map_map]
    congr 1
    generalize doc.Find selSnippet = l
    induction l with
    | nil => simp
    | cons s rest ih =>
      simp only [List.flatMap_cons, List.map_cons, List.flatten_cons, ih, Function.comp]
      congr 1
      cases hx : snippetItems s with
      | nil => exact absurd hx (snippetItems_ne_nil s)
      | cons a t => simp
  · intro p hp
    have hp2 := mem_zip_map_self _ _ _ hp
    rw [hp2]
    unfold snippetItems
    by_cases hv : selectionText (p.1.Find selSub) = []
    · simp [hv]
    · simp [hv]

theorem searchPkgGo_blocks_witness :
    (docTwoSubs.Find selResults).length ≠ 0 ∧
    ∃ blocks : List (item × List item),
      blocks.length = (docTwoSubs.Find selSnippet).length ∧
      searchPkgGo "a".data (.response 200 "200 OK".data (.ok docTwoSubs))
        = ((blocks.map (fun b => b.1 :: b.2)).flatten, none) ∧
      ∀ p ∈ (docTwoSubs.Find selSnippet).zip blocks,
        p.2.1.Package
            = strings_Trim (strings_Trim (selectionText (p.1.Find selHeaderPath)) "(".data)
                ")".data ∧
        p.2.1.Star = selectionText (p.1.Find selImportedBy) ∧
        p.2.1.From = [] ∧
        p.2.2.length = (if selectionText (p.1.Find selSub) = [] then 0 else 1) ∧
        ∀ c ∈ p.2.2,
          c.From = p.2.1.Package ∧ c.Star = p.2.1.Star ∧
          c.Package = strings_Trim (strings_Replace1 "Other packages in module ".data []
            (selectionText (p.1.Find selSub))) ":".data :=
  ⟨by decide, searchPkgGo_blocks "a".data "200 OK".data docTwoSubs (by decide)⟩
/-! ## The model -/

theorem Update_readOutput {L S : Type} (lib : Bubbles L S) (m : model L S) (msg : Msg)
    (h : m.readOutput = true) : (Update lib m msg).m.readOutput = true := by
  cases msg <;> simp only [Update] <;> (try split_ifs) <;> (try split) <;> simp [h]

theorem Update_loading {L S : Type} (lib : Bubbles L S) (m : model L S) (msg : Msg)
    (h : m.loading = false) (hmsg : msg ≠ .searchLoadMsg) :
    (Update lib m msg).m.loading = false := by
  cases msg <;> simp only [Update] <;> (try split_ifs) <;> (try split) <;> simp_all

theorem runUpdates_readOutput {L S : Type} (lib : Bubbles L S) (m : model L S)
    (msgs : List Msg) (h : m.readOutput = true) :
    (runUpdates lib m msgs).1.readOutput = true := by
  induction msgs generalizing m with
  | nil => simpa [runUpdates] using h
  | cons msg rest ih =>
    simp only [runUpdates]
    exact ih _ (Update_readOutput lib m msg h)

theorem runUpdates_loading {L S : Type} (lib : Bubbles L S) (m : model L S)
    (msgs : List Msg) (h : m.loading = false) (hmsgs : Msg.searchLoadMsg ∉ msgs) :
    (runUpdates lib m msgs).1.loading = false := by
  induction msgs generalizing m with
  | nil => simpa [runUpdates] using h
  | cons msg rest ih =>
    simp only [runUpdates]
    have h1 : msg ≠ .searchLoadMsg := fun e => hmsgs (by simp [e])
    have h2 : Msg.searchLoadMsg ∉ rest := fun e => hmsgs (by simp [e])
    exact ih _ (Update_loading lib m msg h h1) h2

theorem screen_executing_iff {L S : Type} (m : model L S) :
    screen m = .Executing ↔ (m.quitting = false ∧ m.loading = false ∧ m.readOutput = true) := by
  unfold screen
  cases m.quitting <;> cases m.loading <;> cases m.readOutput <;> simp

/-- Claim C4 fails as stated: from a model on the Executing screen the message
`searchLoadMsg` leads to the Loading screen. -/
theorem executing_reenters_loading :
    ¬ (∀ (m : model (List item × Int) Unit) (msgs : List Msg), screen m = .Executing →
        screen (runUpdates plainBubbles m msgs).1 ≠ .Loading ∧
        screen (runUpdates plainBubbles m msgs).1 ≠ .Listing) := by
  intro h
  have := (h modelExecuting [.searchLoadMsg] (by decide)).1
  revert this
  decide

/-- Claim C4, amended: from a model on the Executing screen, no sequence of
messages leads to the Listing screen, and no sequence without a
`searchLoadMsg` leads to the Loading screen. -/
theorem executing_never_listing {L S : Type} (lib : Bubbles L S) (m : model L S)
    (msgs : List Msg) (h : screen m = .Executing) :
    screen (runUpdates lib m msgs).1 ≠ .Listing ∧
    (Msg.searchLoadMsg ∉ msgs → screen (runUpdates lib m msgs).1 ≠ .Loading) := by
  obtain ⟨_, hl, hr⟩ := (screen_executing_iff m).mp h
  have h1 := runUpdates_readOutput lib m msgs hr
  refine ⟨?_, ?_⟩
  · unfold screen
    split_ifs <;> simp_all
  · intro hmsgs
    have h2 := runUpdates_loading lib m msgs hl hmsgs
    unfold screen
    split_ifs <;> simp_all

theorem executing_never_listing_witness :
    screen modelExecuting = .Executing ∧
    screen (runUpdates plainBubbles modelExecuting
      [.KeyMsg "q".data, .searchDoneMsg, .outputMsg "x".data, .outputDoneMsg]).1 ≠ .Listing ∧
    (Msg.searchLoadMsg ∉ [Msg.KeyMsg "q".data, .searchDoneMsg, .outputMsg "x".data,
        .outputDoneMsg] →
      screen (runUpdates plainBubbles modelExecuting
        [.KeyMsg "q".data, .searchDoneMsg, .outputMsg "x".data, .outputDoneMsg]).1 ≠ .Loading) :=
  ⟨by decide, executing_never_listing plainBubbles modelExecuting _ (by decide)⟩

/-- Claim C5: `Update` applied to `outputMsg` of each of the lines `ls` in
order and then to `outputDoneMsg` gives a model whose output is the output of
the start model followed by `ls`, whose `readOutput` is true as soon as `ls`
is not empty, and the commands returned are `nil` for each line and
`tea.Quit` for the final step only. -/
theorem runUpdates_output_lines {L S : Type} (lib : Bubbles L S) (m : model L S)
    (ls : List (List Char)) :
    (runUpdates lib m (ls.map Msg.outputMsg ++ [Msg.outputDoneMsg])).1.output = m.output ++ ls ∧
    (runUpdates lib m (ls.map Msg.outputMsg ++ [Msg.outputDoneMsg])).1.readOutput
      = (m.readOutput || !ls.isEmpty) ∧
    (runUpdates lib m (ls.map Msg.outputMsg ++ [Msg.outputDoneMsg])).2
      = List.replicate ls.length Cmd.nil ++ [Cmd.Quit] := by
  induction ls generalizing m with
  | nil => simp [runUpdates, Update]
  | cons l rest ih =>
    obtain ⟨h1, h2, h3⟩ := ih (Update lib m (.outputMsg l)).m
    refine ⟨h1.trans ?_, h2.trans ?_, ?_⟩
    · simp [Update]
    · simp [Update]
    · show (Update lib m (.outputMsg l)).cmd ::
        (runUpdates lib (Update lib m (.outputMsg l)).m
          (rest.map Msg.outputMsg ++ [Msg.outputDoneMsg])).2 = _
      rw [h3]
      simp [Update, List.replicate_succ]

/-- Claim C6 fails as stated: on a model on the Executing screen,
`outputDoneMsg` does not set `quitting`. -/
theorem outputDone_keeps_quitting_false :
    ¬ (∀ (m : model (List item × Int) Unit), screen m = .Executing →
        (Update plainBubbles m .outputDoneMsg).m.quitting = true) := by
  intro h
  have := h modelExecuting (by decide)
  revert this
  decide

/-- Claim C6, amended: on a model on the Executing screen, `Update` on
`outputDoneMsg` returns the model unchanged together with the quit command:
`quitting` stays false, the screen is still Executing and `View` still
renders the lines of output read so far, each followed by a line break. -/
theorem Update_outputDone {L S : Type} (lib : Bubbles L S) (m : model L S)
    (h : screen m = .Executing) :
    (Update lib m .outputDoneMsg).m = m ∧
    (Update lib m .outputDoneMsg).cmd = .Quit ∧
    (Update lib m .outputDoneMsg).m.quitting = false ∧
    screen (Update lib m .outputDoneMsg).m = .Executing ∧
    View lib (Update lib m .outputDoneMsg).m
      = m.output.foldl (fun s output => s ++ (output ++ "\n".data)) [] := by
  obtain ⟨hq, hl, hr⟩ := (screen_executing_iff m).mp h
  refine ⟨rfl, rfl, hq, h, ?_⟩
  simp [Update, View, hq, hl, hr]

theorem Update_outputDone_witness :
    screen modelExecuting = .Executing ∧
    (Update plainBubbles modelExecuting .outputDoneMsg).m = modelExecuting ∧
    (Update plainBubbles modelExecuting .outputDoneMsg).cmd = .Quit ∧
    (Update plainBubbles modelExecuting .outputDoneMsg).m.quitting = false ∧
    screen (Update plainBubbles modelExecuting .outputDoneMsg).m = .Executing ∧
    View plainBubbles (Update plainBubbles modelExecuting .outputDoneMsg).m
      = modelExecuting.output.foldl (fun s output => s ++ (output ++ "\n".data)) [] :=
  ⟨by decide, Update_outputDone plainBubbles modelExecuting (by decide)⟩

/-- Claim C7, evaluated: with no tag on the remote and the version type
`patch`, `getLatestTag` returns an error, the default `v0.0.1` is incremented
and the tag that `createAndPushTag` creates and pushes is `v0.0.2`. -/
theorem createAndPushTag_no_remote_tag :
    (getLatestTag gitNoTags.lsRemoteOutput gitNoTags.lsRemoteErr).2
      = some "no remote tags found".data ∧
    createAndPushTag id gitNoTags [] "patch".data
      = ([.print "Fetching remote tags...".data,
          .print "Failed to get remote tags: no remote tags found".data,
          .print "Will use default version v0.0.1".data,
          .print "New tag version: v0.0.2".data,
          .print "Creating tag v0.0.2...".data,
          .gitTag "v0.0.2".data,
          .print "Pushing tag v0.0.2 to remote repository...".data,
          .gitPush "v0.0.2".data,
          .print "Tag v0.0.2 has been successfully created and pushed to remote repository".data],
         none) := by
  decide

end Gkit
